import Mathlib

/-!
Verification development for the ranking metrics of
`cornac/metrics/ranking.py`: NDCG, NCRR, MRR, MeasureAtK, Precision,
Recall, FMeasure and AUC.

Relevance vectors (`gt_pos`, `gt_neg`) are lists of naturals indexed by
item id; predicted rankings (`pd_rank`) are lists of item ids; `k` is the
truncation depth, where any nonpositive value means "keep all"
(the source uses `-1` as the sentinel).  Prediction scores for AUC are
rationals.  The real-valued NDCG uses `Real.logb 2` for `np.log2`.
-/

/-- Top-k truncation: `pd_rank[:k]` when `k > 0`, the whole list otherwise. -/
def trunc {α : Type} (k : ℤ) (l : List α) : List α :=
  if 0 < k then l.take k.toNat else l

/-- Indices `i` with `gt_pos[i] > 0`, i.e. `np.nonzero(gt_pos > 0)[0]`. -/
def posItems (gt_pos : List ℕ) : List ℕ :=
  (List.range gt_pos.length).filter (fun i => decide (0 < gt_pos.getD i 0))

/-- The 0-indexed positions of `pd_rank` whose item is a ground-truth
positive, i.e. `np.where(np.in1d(pd_rank, gt_pos_items))[0]`. -/
def matchedPos (gt_pos pd_rank : List ℕ) : List ℕ :=
  (List.range pd_rank.length).filter
    (fun p => decide (pd_rank.getD p 0 ∈ posItems gt_pos))

/-- The error message raised by `MRR.compute`. -/
def errMsg : String := "No matched between ground-truth items and recommendations"

/-- Embeds `MRR.compute`: raises when no predicted item matches a ground-truth
positive, otherwise the reciprocal of the 1-indexed first matched position. -/
def MRR_compute (gt_pos pd_rank : List ℕ) : Except String ℚ :=
  match matchedPos gt_pos pd_rank with
  | [] => Except.error errMsg
  | p :: _ => Except.ok (1 / ((p : ℚ) + 1))

/-- Computes `sum(1. / ideal_rank)` for `ideal_rank = arange(m) + 1`. -/
def harmSum (m : ℕ) : ℚ :=
  ((List.range m).map (fun (i : ℕ) => 1 / ((i : ℚ) + 1))).sum

/-- Embeds `NCRR.compute`.  The configured truncation depth `k` is part of the
metric's state (`self.k`) but is never read by `compute`. -/
def NCRR_compute (k : ℤ) (gt_pos pd_rank : List ℕ) : ℚ :=
  ((matchedPos gt_pos pd_rank).map (fun (i : ℕ) => 1 / ((i : ℚ) + 1))).sum
    / harmSum (posItems gt_pos).length

/-- The binary prediction indicator over the index space of `gt_pos`:
`pred = np.zeros_like(gt_pos); pred[pd_rank] = 1` (for an already
truncated `pd_rank`). -/
def predIndicator (gt_pos : List ℕ) (r : List ℕ) : List ℕ :=
  (List.range gt_pos.length).map (fun i => if i ∈ r then 1 else 0)

/-- Embeds `MeasureAtK.compute`: the triple `(tp, tp_fn, tp_fp)`. -/
def MeasureAtK_compute (k : ℤ) (gt_pos pd_rank : List ℕ) : ℕ × ℕ × ℕ :=
  ((List.zipWith (· * ·) (predIndicator gt_pos (trunc k pd_rank)) gt_pos).sum,
   gt_pos.sum,
   (predIndicator gt_pos (trunc k pd_rank)).sum)

/-- Embeds `Precision.compute = tp / tp_fp`. -/
def Precision_compute (k : ℤ) (gt_pos pd_rank : List ℕ) : ℚ :=
  ((MeasureAtK_compute k gt_pos pd_rank).1 : ℚ)
    / ((MeasureAtK_compute k gt_pos pd_rank).2.2 : ℚ)

/-- Embeds `Recall.compute = tp / tp_fn`. -/
def Recall_compute (k : ℤ) (gt_pos pd_rank : List ℕ) : ℚ :=
  ((MeasureAtK_compute k gt_pos pd_rank).1 : ℚ)
    / ((MeasureAtK_compute k gt_pos pd_rank).2.1 : ℚ)

/-- Embeds `FMeasure.compute`: harmonic mean of precision and recall, with the
explicit zero fallback when `prec + rec` is not positive. -/
def FMeasure_compute (k : ℤ) (gt_pos pd_rank : List ℕ) : ℚ :=
  if 0 < Precision_compute k gt_pos pd_rank + Recall_compute k gt_pos pd_rank then
    2 * (Precision_compute k gt_pos pd_rank * Recall_compute k gt_pos pd_rank)
      / (Precision_compute k gt_pos pd_rank + Recall_compute k gt_pos pd_rank)
  else 0

/-- Boolean-mask selection `pd_scores[mask.astype(bool)]`: keep the scores
whose mask entry is nonzero. -/
def maskSelect (scores : List ℚ) (mask : List ℕ) : List ℚ :=
  ((scores.zip mask).filter (fun p => decide (p.2 ≠ 0))).map Prod.fst

/-- The per-positive summand of AUC: `np.sum(pos_score > neg_scores) / len(neg_scores)`. -/
def aucFrac (neg : List ℚ) (ps : ℚ) : ℚ :=
  ((neg.filter (fun ns => decide (ns < ps))).length : ℚ) / (neg.length : ℚ)

/-- Embeds `AUC.compute`: mean over positive scores of the fraction of negative
scores they strictly exceed. -/
def AUC_compute (pd_scores : List ℚ) (gt_pos gt_neg : List ℕ) : ℚ :=
  ((maskSelect pd_scores gt_pos).map (aucFrac (maskSelect pd_scores gt_neg))).sum
    / (((maskSelect pd_scores gt_pos).map (aucFrac (maskSelect pd_scores gt_neg))).length : ℚ)

/-- Per-position gains `2 ** gt_pos[pd_rank] - 1` of a (truncated) ranking. -/
noncomputable def gains (gt_pos : List ℕ) (r : List ℕ) : List ℝ :=
  r.map (fun j => (2 : ℝ) ^ (gt_pos.getD j 0) - 1)

/-- Computes `sum(gain / discounts)` where position `c + i` is discounted by
`log2(c + i + 2)`. -/
noncomputable def dcgFrom : ℕ → List ℝ → ℝ
  | _, [] => 0
  | c, g :: gs => g / Real.logb 2 ((c : ℝ) + 2) + dcgFrom (c + 1) gs

/-- Embeds `NDCG.dcg_score`. -/
noncomputable def dcg_score (gt_pos pd_rank : List ℕ) (k : ℤ) : ℝ :=
  dcgFrom 0 (gains gt_pos (trunc k pd_rank))

/-- Embeds `np.argsort(gt_pos)`: the index sequence sorted ascending by relevance
(a stable sort; `np.argsort` leaves the order among ties unspecified, and
any tie order yields the same ideal DCG). -/
def argsort (gt_pos : List ℕ) : List ℕ :=
  List.insertionSort (fun i j => gt_pos.getD i 0 ≤ gt_pos.getD j 0)
    (List.range gt_pos.length)

/-- Embeds `np.argsort(gt_pos)[::-1]`: the ideal ranking used by `NDCG.compute`. -/
def idealRank (gt_pos : List ℕ) : List ℕ := (argsort gt_pos).reverse

/-- Embeds `NDCG.compute = dcg_score(actual) / dcg_score(ideal)`. -/
noncomputable def NDCG_compute (k : ℤ) (gt_pos pd_rank : List ℕ) : ℝ :=
  dcg_score gt_pos pd_rank k / dcg_score gt_pos (idealRank gt_pos) k

/-! ### Basic facts about the positive-item set and matched positions -/

lemma posItems_mem (gt_pos : List ℕ) (x : ℕ) :
    x ∈ posItems gt_pos ↔ x < gt_pos.length ∧ 0 < gt_pos.getD x 0 := by
  simp [posItems, List.mem_filter, List.mem_range]

lemma posItems_nodup (gt_pos : List ℕ) : (posItems gt_pos).Nodup :=
  (List.nodup_range _).filter _

lemma matchedPos_sorted (gt_pos pd_rank : List ℕ) :
    List.Pairwise (· < ·) (matchedPos gt_pos pd_rank) :=
  List.Pairwise.sublist (List.filter_sublist _) (List.pairwise_lt_range _)

lemma matchedPos_nodup (gt_pos pd_rank : List ℕ) : (matchedPos gt_pos pd_rank).Nodup :=
  (List.nodup_range _).filter _

lemma matchedPos_mem (gt_pos pd_rank : List ℕ) (p : ℕ) :
    p ∈ matchedPos gt_pos pd_rank ↔
      p < pd_rank.length ∧ pd_rank.getD p 0 ∈ posItems gt_pos := by
  simp [matchedPos, List.mem_filter, List.mem_range]

lemma matchedPos_nil_iff (gt_pos pd_rank : List ℕ) :
    matchedPos gt_pos pd_rank = [] ↔ ∀ x ∈ pd_rank, x ∉ posItems gt_pos := by
  rw [matchedPos, List.filter_eq_nil_iff]
  constructor
  · intro h x hx
    obtain ⟨i, hi, hix⟩ := List.mem_iff_getElem.mp hx
    have h2 := h i (List.mem_range.mpr hi)
    rw [List.getD_eq_getElem _ _ hi, hix] at h2
    simpa using h2
  · intro h i hi
    rw [List.mem_range] at hi
    simp only [decide_eq_true_eq]
    refine h _ ?_
    rw [List.getD_eq_getElem _ _ hi]
    exact List.getElem_mem hi


/-- C1: `MRR.compute` raises an invalid-input error if and only if no item of
`pd_rank` belongs to the positive set (the items `i` with `gt_pos[i] > 0`);
otherwise it returns `1 / (p + 1)` where `p` is the smallest 0-indexed
position in `pd_rank` whose item is a ground-truth positive. -/
theorem C1_MRR_spec (gt_pos pd_rank : List ℕ) :
    ((∃ e, MRR_compute gt_pos pd_rank = Except.error e) ↔
      ∀ x ∈ pd_rank, x ∉ posItems gt_pos)
  ∧ (∀ x, x ∈ posItems gt_pos ↔ x < gt_pos.length ∧ 0 < gt_pos.getD x 0)
  ∧ (∀ p, p < pd_rank.length → pd_rank.getD p 0 ∈ posItems gt_pos →
      (∀ q, q < p → pd_rank.getD q 0 ∉ posItems gt_pos) →
      MRR_compute gt_pos pd_rank = Except.ok (1 / ((p : ℚ) + 1))) := by
  refine ⟨?_, posItems_mem gt_pos, ?_⟩
  · rw [← matchedPos_nil_iff]
    cases h : matchedPos gt_pos pd_rank with
    | nil => simp [MRR_compute, h]
    | cons q t => simp [MRR_compute, h]
  · intro p hp hpmemPos hmin
    have hpmem : p ∈ matchedPos gt_pos pd_rank :=
      (matchedPos_mem _ _ _).mpr ⟨hp, hpmemPos⟩
    cases h : matchedPos gt_pos pd_rank with
    | nil => rw [h] at hpmem; cases hpmem
    | cons q t =>
      have hsorted := matchedPos_sorted gt_pos pd_rank
      have hq : q ∈ matchedPos gt_pos pd_rank := by
        rw [h]; exact List.mem_cons_self _ _
      have hqprop := (matchedPos_mem _ _ _).mp hq
      rw [h] at hpmem hsorted
      rcases List.mem_cons.mp hpmem with rfl | hpt
      · simp [MRR_compute, h]
      · have hqp : q < p := (List.pairwise_cons.mp hsorted).1 p hpt
        exact absurd hqprop.2 (hmin q hqp)

theorem C1_MRR_spec_inst :
    MRR_compute [1, 0] [1, 0] = Except.ok (1 / ((1 : ℚ) + 1))
  ∧ (∃ e, MRR_compute [1, 0] [2, 3] = Except.error e) := by
  constructor
  · exact (C1_MRR_spec [1, 0] [1, 0]).2.2 1 (by decide) (by decide)
      (by decide)
  · exact (C1_MRR_spec [1, 0] [2, 3]).1.mpr (by decide)

/-- C10: the NCRR score is independent of the configured truncation depth
`k`: `compute` never reads `k` and never truncates `pd_rank`.  The concrete
case shows a match at position 1 still being counted under `k = 1`. -/
theorem C10_NCRR_k_independent :
    (∀ (k1 k2 : ℤ) (gt_pos pd_rank : List ℕ),
      NCRR_compute k1 gt_pos pd_rank = NCRR_compute k2 gt_pos pd_rank)
  ∧ NCRR_compute 1 [1, 1] [0, 1] = 1 := by
  constructor
  · intro k1 k2 gt_pos pd_rank; rfl
  · have h1 : matchedPos [1, 1] [0, 1] = [0, 1] := by decide
    have h2 : posItems [1, 1] = [0, 1] := by decide
    rw [NCRR_compute, h1, h2]
    norm_num [harmSum, List.range_succ]

/-- C5: `FMeasure.compute` returns `2*P*R/(P+R)` when `P+R > 0` and exactly
`0` otherwise; in particular it is `0` whenever `tp = 0`, e.g. on
`gt_pos = [1,0]`, `pd_rank = [1]`, `k = 1` where `tp_fn` and `tp_fp` are
both positive. -/
theorem C5_FMeasure_spec :
    (∀ (k : ℤ) (gt_pos pd_rank : List ℕ),
      (0 < Precision_compute k gt_pos pd_rank + Recall_compute k gt_pos pd_rank →
        FMeasure_compute k gt_pos pd_rank =
          2 * (Precision_compute k gt_pos pd_rank * Recall_compute k gt_pos pd_rank)
            / (Precision_compute k gt_pos pd_rank + Recall_compute k gt_pos pd_rank))
      ∧ (¬ 0 < Precision_compute k gt_pos pd_rank + Recall_compute k gt_pos pd_rank →
        FMeasure_compute k gt_pos pd_rank = 0)
      ∧ ((MeasureAtK_compute k gt_pos pd_rank).1 = 0 →
        FMeasure_compute k gt_pos pd_rank = 0))
  ∧ (MeasureAtK_compute 1 [1, 0] [1]).1 = 0
  ∧ 0 < (MeasureAtK_compute 1 [1, 0] [1]).2.1
  ∧ 0 < (MeasureAtK_compute 1 [1, 0] [1]).2.2
  ∧ FMeasure_compute 1 [1, 0] [1] = 0 := by
  refine ⟨?_, by decide, by decide, by decide, ?_⟩
  · intro k gt_pos pd_rank
    refine ⟨fun h => by rw [FMeasure_compute, if_pos h],
            fun h => by rw [FMeasure_compute, if_neg h], fun h => ?_⟩
    have hP : Precision_compute k gt_pos pd_rank = 0 := by
      rw [Precision_compute, h]; norm_num
    have hR : Recall_compute k gt_pos pd_rank = 0 := by
      rw [Recall_compute, h]; norm_num
    rw [FMeasure_compute, hP, hR]
    norm_num
  · have h : MeasureAtK_compute 1 [1, 0] [1] = (0, 1, 1) := by decide
    rw [FMeasure_compute, Precision_compute, Recall_compute, h]
    norm_num

theorem C5_FMeasure_spec_inst :
    FMeasure_compute 2 [1, 1] [0, 1] =
      2 * (Precision_compute 2 [1, 1] [0, 1] * Recall_compute 2 [1, 1] [0, 1])
        / (Precision_compute 2 [1, 1] [0, 1] + Recall_compute 2 [1, 1] [0, 1]) := by
  refine (C5_FMeasure_spec.1 2 [1, 1] [0, 1]).1 ?_
  have h : MeasureAtK_compute 2 [1, 1] [0, 1] = (2, 2, 2) := by decide
  rw [Precision_compute, Recall_compute, h]
  norm_num

/-- C6: `Precision.compute` is `tp / tp_fp` and `Recall.compute` is
`tp / tp_fn` over the `MeasureAtK` triple, and on `gt_pos = [1,0,1,0]`,
`pd_rank = [0,1,2,3]`, `k = 2` the triple is `(1, 2, 2)` and
precision, recall and F1 all equal `1/2`. -/
theorem C6_precision_recall_spec :
    (∀ (k : ℤ) (gt_pos pd_rank : List ℕ),
        Precision_compute k gt_pos pd_rank =
          ((MeasureAtK_compute k gt_pos pd_rank).1 : ℚ)
            / ((MeasureAtK_compute k gt_pos pd_rank).2.2 : ℚ)
      ∧ Recall_compute k gt_pos pd_rank =
          ((MeasureAtK_compute k gt_pos pd_rank).1 : ℚ)
            / ((MeasureAtK_compute k gt_pos pd_rank).2.1 : ℚ))
  ∧ MeasureAtK_compute 2 [1, 0, 1, 0] [0, 1, 2, 3] = (1, 2, 2)
  ∧ Precision_compute 2 [1, 0, 1, 0] [0, 1, 2, 3] = 1 / 2
  ∧ Recall_compute 2 [1, 0, 1, 0] [0, 1, 2, 3] = 1 / 2
  ∧ FMeasure_compute 2 [1, 0, 1, 0] [0, 1, 2, 3] = 1 / 2 := by
  have h : MeasureAtK_compute 2 [1, 0, 1, 0] [0, 1, 2, 3] = (1, 2, 2) := by decide
  refine ⟨fun k gt_pos pd_rank => ⟨rfl, rfl⟩, h, ?_, ?_, ?_⟩
  · rw [Precision_compute, h]; norm_num
  · rw [Recall_compute, h]; norm_num
  · rw [FMeasure_compute, Precision_compute, Recall_compute, h]; norm_num

/-! ### Counting lemmas for the MeasureAtK triple -/

lemma sum_if_eq_filter_length (l : List ℕ) (q : ℕ → Prop) [DecidablePred q] :
    (l.map (fun i => if q i then 1 else 0)).sum
      = (l.filter (fun i => decide (q i))).length := by
  induction l with
  | nil => rfl
  | cons a t ih =>
    by_cases h : q a <;> simp [List.filter_cons, h, ih, Nat.add_comm]

lemma zipWith_mul_range_map (f : ℕ → ℕ) (l : List ℕ) :
    List.zipWith (· * ·) ((List.range l.length).map f) l
      = (List.range l.length).map (fun i => f i * l.getD i 0) := by
  induction l generalizing f with
  | nil => rfl
  | cons a t ih =>
    simp only [List.length_cons, List.range_succ_eq_map, List.map_cons,
      List.zipWith_cons_cons, List.map_map]
    exact congrArg₂ List.cons rfl (ih (fun i => f (i + 1)))

lemma sum_ind_mul (l : List ℕ) (q : ℕ → Prop) [DecidablePred q] (v : ℕ → ℕ)
    (hv : ∀ i ∈ l, v i ≤ 1) :
    (l.map (fun i => (if q i then 1 else 0) * v i)).sum
      = (l.filter (fun i => decide (q i) && decide (0 < v i))).length := by
  induction l with
  | nil => rfl
  | cons a t ih =>
    have ha := hv a (List.mem_cons_self a t)
    have ih' := ih (fun i hi => hv i (List.mem_cons_of_mem _ hi))
    rw [List.map_cons, List.sum_cons, ih', List.filter_cons]
    interval_cases h : v a <;> by_cases hq : q a <;>
      simp [hq, h, Nat.add_comm]

lemma tp_eq_count (k : ℤ) (gt_pos pd_rank : List ℕ) (hbin : ∀ x ∈ gt_pos, x ≤ 1) :
    (MeasureAtK_compute k gt_pos pd_rank).1
      = ((List.range gt_pos.length).filter
          (fun i => decide (i ∈ trunc k pd_rank) && decide (0 < gt_pos.getD i 0))).length := by
  show (List.zipWith (· * ·) (predIndicator gt_pos (trunc k pd_rank)) gt_pos).sum = _
  rw [predIndicator, zipWith_mul_range_map]
  refine sum_ind_mul _ _ _ ?_
  intro i hi
  rw [List.mem_range] at hi
  rw [List.getD_eq_getElem _ _ hi]
  exact hbin _ (List.getElem_mem hi)

lemma tp_fn_eq_count (k : ℤ) (gt_pos pd_rank : List ℕ) (hbin : ∀ x ∈ gt_pos, x ≤ 1) :
    (MeasureAtK_compute k gt_pos pd_rank).2.1 = (posItems gt_pos).length := by
  show gt_pos.sum = _
  rw [posItems]
  induction gt_pos with
  | nil => rfl
  | cons a t ih =>
    have ha := hbin a (List.mem_cons_self a t)
    have ih' := ih (fun x hx => hbin x (List.mem_cons_of_mem _ hx))
    rw [List.sum_cons, List.length_cons, List.range_succ_eq_map, List.filter_cons,
      List.filter_map]
    have hcomp : ((fun i => decide (0 < (a :: t).getD i 0)) ∘ Nat.succ)
        = (fun i => decide (0 < t.getD i 0)) := rfl
    rw [hcomp]
    interval_cases h : a <;> simp [ih', Nat.add_comm]

lemma trunc_sublist (k : ℤ) (l : List ℕ) : (trunc k l).Sublist l := by
  rw [trunc]
  split
  · exact List.take_sublist _ _
  · exact List.Sublist.refl _

lemma tp_fp_eq_length (k : ℤ) (gt_pos pd_rank : List ℕ) (hnd : pd_rank.Nodup)
    (hval : ∀ x ∈ pd_rank, x < gt_pos.length) :
    (MeasureAtK_compute k gt_pos pd_rank).2.2 = (trunc k pd_rank).length := by
  show (predIndicator gt_pos (trunc k pd_rank)).sum = _
  rw [predIndicator, sum_if_eq_filter_length]
  have hrnd : (trunc k pd_rank).Nodup := (trunc_sublist k pd_rank).nodup hnd
  have hperm : ((List.range gt_pos.length).filter
      (fun i => decide (i ∈ trunc k pd_rank))).Perm (trunc k pd_rank) := by
    rw [List.perm_ext_iff_of_nodup ((List.nodup_range _).filter _) hrnd]
    intro a
    simp only [List.mem_filter, List.mem_range, decide_eq_true_eq]
    exact ⟨fun h => h.2,
      fun h => ⟨hval a ((trunc_sublist k pd_rank).mem h), h⟩⟩
  exact hperm.length_eq

/-- C4: the `MeasureAtK` triple: `pd_rank` is truncated to its first `k`
entries when `k > 0`, `tp` counts truncated-rank items that are relevant,
`tp_fn` counts all ground-truth positives, and `tp_fp` is the truncated
length, which equals `min k (length pd_rank)` whenever `0 < k ≤ length`. -/
theorem C4_MeasureAtK_spec (k : ℤ) (gt_pos pd_rank : List ℕ) (hnd : pd_rank.Nodup)
    (hval : ∀ x ∈ pd_rank, x < gt_pos.length) (hbin : ∀ x ∈ gt_pos, x ≤ 1) :
    (0 < k → trunc k pd_rank = pd_rank.take k.toNat)
  ∧ (k ≤ 0 → trunc k pd_rank = pd_rank)
  ∧ (MeasureAtK_compute k gt_pos pd_rank).1
      = ((List.range gt_pos.length).filter
          (fun i => decide (i ∈ trunc k pd_rank) && decide (0 < gt_pos.getD i 0))).length
  ∧ (MeasureAtK_compute k gt_pos pd_rank).2.1 = (posItems gt_pos).length
  ∧ (MeasureAtK_compute k gt_pos pd_rank).2.2 = (trunc k pd_rank).length
  ∧ (0 < k → k ≤ (pd_rank.length : ℤ) →
      ((MeasureAtK_compute k gt_pos pd_rank).2.2 : ℤ) = min k (pd_rank.length : ℤ)) := by
  refine ⟨fun h => by rw [trunc, if_pos h], fun h => by rw [trunc, if_neg (by omega)],
    tp_eq_count k gt_pos pd_rank hbin, tp_fn_eq_count k gt_pos pd_rank hbin,
    tp_fp_eq_length k gt_pos pd_rank hnd hval, ?_⟩
  intro hk hklen
  rw [tp_fp_eq_length k gt_pos pd_rank hnd hval, trunc, if_pos hk, List.length_take]
  have h1 : k.toNat ≤ pd_rank.length := by omega
  have h2 : k.toNat ⊓ pd_rank.length = k.toNat := by omega
  rw [h2]
  omega

theorem C4_MeasureAtK_spec_inst :
    (MeasureAtK_compute 2 [1, 0, 1, 0] [0, 1, 2, 3]).2.2 = (trunc 2 [0, 1, 2, 3]).length
  ∧ (MeasureAtK_compute 2 [1, 0, 1, 0] [0, 1, 2, 3]).2.1 = (posItems [1, 0, 1, 0]).length
  ∧ ((MeasureAtK_compute 2 [1, 0, 1, 0] [0, 1, 2, 3]).2.2 : ℤ)
      = min 2 (([0, 1, 2, 3] : List ℕ).length : ℤ) := by
  have h := C4_MeasureAtK_spec 2 [1, 0, 1, 0] [0, 1, 2, 3]
    (by decide) (by decide) (by decide)
  exact ⟨h.2.2.2.2.1, h.2.2.2.1, h.2.2.2.2.2 (by decide) (by decide)⟩

/-! ### AUC -/

/-- The number of negative scores a positive score strictly exceeds. -/
def strictWins (neg : List ℚ) (ps : ℚ) : ℕ := neg.countP (fun ns => decide (ns < ps))

/-- The claim-side AUC: the mean over all positive items of the fraction of
negative items whose score the positive score strictly exceeds. -/
def AUCspec (pd_scores : List ℚ) (gt_pos gt_neg : List ℕ) : ℚ :=
  ((maskSelect pd_scores gt_pos).map
    (fun ps => (strictWins (maskSelect pd_scores gt_neg) ps : ℚ)
      / ((maskSelect pd_scores gt_neg).length : ℚ))).sum
    / ((maskSelect pd_scores gt_pos).length : ℚ)

/-- C3: with at least one positive and one negative, `AUC.compute` is the
mean over positives of the fraction of negatives strictly beaten; a tie
contributes nothing (the tied case scores 0 where the strict case scores 1). -/
theorem C3_AUC_spec :
    (∀ (pd_scores : List ℚ) (gt_pos gt_neg : List ℕ),
      maskSelect pd_scores gt_pos ≠ [] → maskSelect pd_scores gt_neg ≠ [] →
      AUC_compute pd_scores gt_pos gt_neg = AUCspec pd_scores gt_pos gt_neg)
  ∧ AUC_compute [9/10, 1/10, 1/2, 1/5] [1, 0, 0, 0] [0, 1, 0, 1] = 1
  ∧ AUC_compute [1/2, 1/2] [1, 0] [0, 1] = 0
  ∧ AUC_compute [1, 1/2] [1, 0] [0, 1] = 1 := by
  refine ⟨?_, ?_, ?_, ?_⟩
  · intro pd_scores gt_pos gt_neg _ _
    simp only [AUC_compute, AUCspec, strictWins, List.countP_eq_length_filter,
      List.length_map]
    rfl
  · norm_num [AUC_compute, aucFrac, maskSelect, List.filter]
  · norm_num [AUC_compute, aucFrac, maskSelect, List.filter]
  · norm_num [AUC_compute, aucFrac, maskSelect, List.filter]

theorem C3_AUC_spec_inst :
    AUC_compute [1, 1/2] [1, 0] [0, 1] = AUCspec [1, 1/2] [1, 0] [0, 1] := by
  refine C3_AUC_spec.1 [1, 1/2] [1, 0] [0, 1] ?_ ?_ <;> decide

/-! ### The ideal ranking -/

lemma argsort_perm (gt_pos : List ℕ) :
    (argsort gt_pos).Perm (List.range gt_pos.length) :=
  List.perm_insertionSort _ _

lemma idealRank_perm (gt_pos : List ℕ) :
    (idealRank gt_pos).Perm (List.range gt_pos.length) :=
  ((argsort gt_pos).reverse_perm).trans (argsort_perm gt_pos)

lemma idealRank_length (gt_pos : List ℕ) :
    (idealRank gt_pos).length = gt_pos.length := by
  simpa using (idealRank_perm gt_pos).length_eq

lemma argsort_sorted (gt_pos : List ℕ) :
    List.Pairwise (fun i j => gt_pos.getD i 0 ≤ gt_pos.getD j 0) (argsort gt_pos) := by
  haveI : IsTotal ℕ (fun i j => gt_pos.getD i 0 ≤ gt_pos.getD j 0) :=
    ⟨fun a b => le_total _ _⟩
  haveI : IsTrans ℕ (fun i j => gt_pos.getD i 0 ≤ gt_pos.getD j 0) :=
    ⟨fun a b c hab hbc => le_trans hab hbc⟩
  exact List.sorted_insertionSort _ _

lemma idealRank_sorted (gt_pos : List ℕ) :
    List.Pairwise (fun i j => gt_pos.getD j 0 ≤ gt_pos.getD i 0) (idealRank gt_pos) := by
  rw [idealRank]
  exact List.pairwise_reverse.mpr (argsort_sorted gt_pos)

lemma idealRank_values_sorted (gt_pos : List ℕ) :
    List.Pairwise (fun a b => b ≤ a)
      ((idealRank gt_pos).map (fun i => gt_pos.getD i 0)) :=
  List.Pairwise.map _ (fun _ _ h => h) (idealRank_sorted gt_pos)

lemma map_getD_range (gt_pos : List ℕ) :
    (List.range gt_pos.length).map (fun i => gt_pos.getD i 0) = gt_pos := by
  induction gt_pos with
  | nil => rfl
  | cons a t ih =>
    rw [List.length_cons, List.range_succ_eq_map, List.map_cons, List.map_map]
    exact congrArg₂ List.cons rfl ih

/-! ### DCG as a closed-form sum -/

/-- The claim-side DCG: the sum over 0-indexed positions `i` of
`(2 ^ gt_pos[r[i]] - 1) / log2(i + 2)`. -/
noncomputable def dcgSpec (gt_pos r : List ℕ) : ℝ :=
  ∑ i ∈ Finset.range r.length,
    ((2 : ℝ) ^ (gt_pos.getD (r.getD i 0) 0) - 1) / Real.logb 2 ((i : ℝ) + 2)

lemma dcgFrom_gains (gt_pos : List ℕ) (r : List ℕ) :
    ∀ c : ℕ, dcgFrom c (gains gt_pos r)
      = ∑ i ∈ Finset.range r.length,
          ((2 : ℝ) ^ (gt_pos.getD (r.getD i 0) 0) - 1)
            / Real.logb 2 ((i : ℝ) + (c : ℝ) + 2) := by
  induction r with
  | nil => intro c; simp [gains, dcgFrom]
  | cons j t ih =>
    intro c
    rw [gains, List.map_cons]
    show _ / Real.logb 2 ((c : ℝ) + 2) + dcgFrom (c + 1) (gains gt_pos t) = _
    rw [ih (c + 1), List.length_cons, Finset.sum_range_succ']
    have h0 : ((j :: t).getD 0 0) = j := rfl
    rw [h0]
    have hterm : ∀ i : ℕ,
        ((2 : ℝ) ^ (gt_pos.getD ((j :: t).getD (i + 1) 0) 0) - 1)
            / Real.logb 2 ((i + 1 : ℕ) + (c : ℝ) + 2)
          = ((2 : ℝ) ^ (gt_pos.getD (t.getD i 0) 0) - 1)
            / Real.logb 2 ((i : ℝ) + ((c + 1 : ℕ) : ℝ) + 2) := by
      intro i
      have hd : ((j :: t).getD (i + 1) 0) = t.getD i 0 := rfl
      have harg : ((i + 1 : ℕ) : ℝ) + (c : ℝ) + 2 = (i : ℝ) + ((c + 1 : ℕ) : ℝ) + 2 := by
        push_cast
        ring
      rw [hd, harg]
    rw [Finset.sum_congr rfl (fun i _ => hterm i)]
    have hlast : ((0 : ℕ) : ℝ) + (c : ℝ) + 2 = (c : ℝ) + 2 := by push_cast; ring
    rw [hlast]
    exact add_comm _ _

lemma dcg_score_eq_spec (gt_pos pd_rank : List ℕ) (k : ℤ) :
    dcg_score gt_pos pd_rank k = dcgSpec gt_pos (trunc k pd_rank) := by
  rw [dcg_score, dcgSpec, dcgFrom_gains]
  refine Finset.sum_congr rfl (fun i _ => ?_)
  norm_num

/-- C2: `dcg_score` truncates the rank to its first `k` entries when
`k > 0` (otherwise keeps all) and returns the positional gain/discount sum,
and `NDCG.compute` divides by the DCG of the ideal ranking: the index
sequence of `gt_pos` sorted descending by relevance. -/
theorem C2_NDCG_spec (k : ℤ) (gt_pos pd_rank : List ℕ) :
    dcg_score gt_pos pd_rank k = dcgSpec gt_pos (trunc k pd_rank)
  ∧ (0 < k → trunc k pd_rank = pd_rank.take k.toNat)
  ∧ (k ≤ 0 → trunc k pd_rank = pd_rank)
  ∧ NDCG_compute k gt_pos pd_rank
      = dcg_score gt_pos pd_rank k / dcg_score gt_pos (idealRank gt_pos) k
  ∧ (idealRank gt_pos).Perm (List.range gt_pos.length)
  ∧ List.Pairwise (fun a b => b ≤ a)
      ((idealRank gt_pos).map (fun i => gt_pos.getD i 0)) :=
  ⟨dcg_score_eq_spec gt_pos pd_rank k,
   fun h => by rw [trunc, if_pos h],
   fun h => by rw [trunc, if_neg (by omega)],
   rfl, idealRank_perm gt_pos, idealRank_values_sorted gt_pos⟩

theorem C2_NDCG_spec_inst :
    trunc (-1) ([0] : List ℕ) = [0]
  ∧ dcg_score [1] [0] (-1) = dcgSpec [1] (trunc (-1) [0]) :=
  ⟨(C2_NDCG_spec (-1) [1] [0]).2.2.1 (by norm_num),
   (C2_NDCG_spec (-1) [1] [0]).1⟩

/-! ### Truncation invariance of NDCG -/

lemma trunc_eq_of_le {α : Type} (k : ℤ) (l : List α) (h : (l.length : ℤ) ≤ k) :
    trunc k l = l := by
  rw [trunc]
  split
  · exact List.take_of_length_le (by omega)
  · rfl

lemma trunc_nonpos {α : Type} (k : ℤ) (l : List α) (h : k ≤ 0) : trunc k l = l := by
  rw [trunc, if_neg (by omega)]

/-- C7 counterexample: with `gt_pos = [1,1]` and `pd_rank = [0]`, both
`K1 = 1` and `K2 = 2` are at least `len(pd_rank)`, yet the NDCG values
differ: the ideal DCG is still truncated by `k`, so the score changes
between `K = 1` and `K = 2`. -/
theorem C7_counterexample :
    (([0] : List ℕ).length : ℤ) ≤ 1 ∧ (([0] : List ℕ).length : ℤ) ≤ 2
  ∧ NDCG_compute 1 [1, 1] [0] ≠ NDCG_compute 2 [1, 1] [0] := by
  have hideal : idealRank [1, 1] = [1, 0] := by decide
  have hlog2 : Real.logb 2 2 = 1 := Real.logb_self_eq_one one_lt_two
  have hlog3 : 0 < Real.logb 2 3 := Real.logb_pos one_lt_two (by norm_num)
  have ht1 : trunc (1 : ℤ) ([0] : List ℕ) = [0] := by decide
  have ht2 : trunc (1 : ℤ) ([1, 0] : List ℕ) = [1] := by decide
  have ht3 : trunc (2 : ℤ) ([0] : List ℕ) = [0] := by decide
  have ht4 : trunc (2 : ℤ) ([1, 0] : List ℕ) = [1, 0] := by decide
  have h1 : NDCG_compute 1 [1, 1] [0] = 1 := by
    rw [NDCG_compute, hideal, dcg_score, dcg_score, ht1, ht2]
    norm_num [gains, dcgFrom, hlog2]
  have h2 : NDCG_compute 2 [1, 1] [0] = 1 / (1 + 1 / Real.logb 2 3) := by
    rw [NDCG_compute, hideal, dcg_score, dcg_score, ht3, ht4]
    norm_num [gains, dcgFrom, hlog2]
  refine ⟨by norm_num, by norm_num, ?_⟩
  rw [h1, h2]
  intro heq
  have hne : 1 + 1 / Real.logb 2 3 ≠ 0 := by positivity
  rw [eq_div_iff hne] at heq
  have hpos : 0 < 1 / Real.logb 2 3 := by positivity
  nlinarith

/-- C7 amended: the NDCG score is invariant to the truncation depth `K`
once `K` is at least both the length of `pd_rank` and the length of
`gt_pos` (the ideal ranking, which `compute` also truncates at `K`, has
the length of `gt_pos`); both values then equal the untruncated `k = -1`
score. -/
theorem C7_NDCG_trunc_invariant (gt_pos pd_rank : List ℕ) (K1 K2 : ℤ)
    (h1p : (pd_rank.length : ℤ) ≤ K1) (h1g : (gt_pos.length : ℤ) ≤ K1)
    (h2p : (pd_rank.length : ℤ) ≤ K2) (h2g : (gt_pos.length : ℤ) ≤ K2) :
    NDCG_compute K1 gt_pos pd_rank = NDCG_compute K2 gt_pos pd_rank
  ∧ NDCG_compute K1 gt_pos pd_rank = NDCG_compute (-1) gt_pos pd_rank := by
  have hi : ((idealRank gt_pos).length : ℤ) = (gt_pos.length : ℤ) := by
    rw [idealRank_length]
  constructor <;>
  · rw [NDCG_compute, NDCG_compute, dcg_score, dcg_score, dcg_score, dcg_score]
    rw [trunc_eq_of_le _ _ h1p, trunc_eq_of_le _ _ (by rw [hi]; exact h1g)]
    first
    | rw [trunc_eq_of_le _ _ h2p, trunc_eq_of_le _ _ (by rw [hi]; exact h2g)]
    | rw [trunc_nonpos (-1) _ (by norm_num), trunc_nonpos (-1) _ (by norm_num)]

theorem C7_NDCG_trunc_invariant_inst :
    NDCG_compute 3 [1, 0] [0, 1] = NDCG_compute 5 [1, 0] [0, 1]
  ∧ NDCG_compute 3 [1, 0] [0, 1] = NDCG_compute (-1) [1, 0] [0, 1] :=
  C7_NDCG_trunc_invariant [1, 0] [0, 1] 3 5
    (by norm_num) (by norm_num) (by norm_num) (by norm_num)

/-! ### Counting in descending-sorted lists -/

lemma sorted_desc_getElem_le {α : Type} [LinearOrder α] {l : List α}
    (hs : List.Pairwise (fun a b => b ≤ a) l) {i j : ℕ} (hij : i ≤ j)
    (hj : j < l.length) : l[j] ≤ l.get ⟨i, lt_of_le_of_lt hij hj⟩ := by
  rcases lt_or_eq_of_le hij with h | h
  · exact List.pairwise_iff_getElem.mp hs i j _ hj h
  · subst h; exact le_refl _

lemma sorted_desc_countP_ge {α : Type} [LinearOrder α] {l : List α}
    (hs : List.Pairwise (fun a b => b ≤ a) l) {c : α} {i : ℕ} (hi : i < l.length)
    (h : c < l[i]) : i + 1 ≤ l.countP (fun x => decide (c < x)) := by
  have hsplit : l.countP (fun x => decide (c < x))
      = (l.take (i + 1)).countP (fun x => decide (c < x))
        + (l.drop (i + 1)).countP (fun x => decide (c < x)) := by
    conv_lhs => rw [← List.take_append_drop (i + 1) l]
    rw [List.countP_append]
  have htake : (l.take (i + 1)).countP (fun x => decide (c < x))
      = (l.take (i + 1)).length := by
    rw [List.countP_eq_length]
    intro a ha
    obtain ⟨j, hjlen, hja⟩ := List.mem_iff_getElem.mp ha
    have hjl : j < l.length := lt_of_lt_of_le hjlen (by
      rw [List.length_take]; exact min_le_right _ _)
    have hji : j ≤ i := by
      rw [List.length_take] at hjlen; omega
    rw [List.getElem_take] at hja
    subst hja
    simpa using lt_of_lt_of_le h (sorted_desc_getElem_le hs hji hi)
  have hlen : (l.take (i + 1)).length = i + 1 := by
    rw [List.length_take]; omega
  omega

lemma sorted_desc_countP_le {α : Type} [LinearOrder α] {l : List α}
    (hs : List.Pairwise (fun a b => b ≤ a) l) {c : α} {i : ℕ} (hi : i < l.length)
    (h : l[i] ≤ c) : l.countP (fun x => decide (c < x)) ≤ i := by
  have hsplit : l.countP (fun x => decide (c < x))
      = (l.take i).countP (fun x => decide (c < x))
        + (l.drop i).countP (fun x => decide (c < x)) := by
    conv_lhs => rw [← List.take_append_drop i l]
    rw [List.countP_append]
  have hdrop : (l.drop i).countP (fun x => decide (c < x)) = 0 := by
    rw [List.countP_eq_zero]
    intro a ha
    obtain ⟨j, hjlen, hja⟩ := List.mem_iff_getElem.mp ha
    have hij : i + j < l.length := by
      rw [List.length_drop] at hjlen; omega
    rw [List.getElem_drop] at hja
    subst hja
    have hle : l[i + j] ≤ l[i] := sorted_desc_getElem_le hs (Nat.le_add_right i j) hij
    simp only [decide_eq_true_eq, not_lt]
    exact le_trans hle h
  have htake : (l.take i).countP (fun x => decide (c < x)) ≤ i := by
    refine le_trans (List.countP_le_length _) ?_
    rw [List.length_take]; omega
  omega

lemma filter_range_lt (p n : ℕ) (h : p ≤ n) :
    (List.range n).filter (fun i => decide (i < p)) = List.range p := by
  induction n with
  | zero =>
    have hp : p = 0 := by omega
    subst hp; rfl
  | succ m ih =>
    rcases Nat.lt_or_ge m p with hmp | hmp
    · have hp : p = m + 1 := by omega
      subst hp
      rw [List.filter_eq_self.mpr]
      intro a ha
      rw [List.mem_range] at ha
      simpa using ha
    · rw [List.range_succ, List.filter_append, ih hmp]
      have hm : ¬ (m < p) := by omega
      have hone : (List.filter (fun i => decide (i < p)) [m]) = [] := by
        simp [List.filter, hm]
      rw [hone, List.append_nil]

/-! ### Positivity facts for DCG and the harmonic sum -/

lemma disc_pos (c : ℕ) : 0 < Real.logb 2 ((c : ℝ) + 2) := by
  refine Real.logb_pos one_lt_two ?_
  have h := Nat.cast_nonneg (α := ℝ) c
  linarith

lemma gain_nonneg (v : ℕ) : 0 ≤ (2 : ℝ) ^ v - 1 := by
  have h : (2 : ℝ) ^ (0 : ℕ) ≤ 2 ^ v := pow_le_pow_right₀ (by norm_num) (Nat.zero_le _)
  simpa using h

lemma gain_pos (v : ℕ) (hv : 0 < v) : 0 < (2 : ℝ) ^ v - 1 := by
  have h : (2 : ℝ) ^ (1 : ℕ) ≤ 2 ^ v := pow_le_pow_right₀ (by norm_num) hv
  simp only [pow_one] at h
  linarith

lemma dcgFrom_nonneg (l : List ℝ) (hl : ∀ g ∈ l, 0 ≤ g) : ∀ c, 0 ≤ dcgFrom c l := by
  induction l with
  | nil => intro c; simp [dcgFrom]
  | cons g gs ih =>
    intro c
    have hg := hl g (List.mem_cons_self _ _)
    have ihc := ih (fun x hx => hl x (List.mem_cons_of_mem _ hx)) (c + 1)
    have hd := disc_pos c
    have hdiv : 0 ≤ g / Real.logb 2 ((c : ℝ) + 2) := div_nonneg hg (le_of_lt hd)
    show 0 ≤ g / Real.logb 2 ((c : ℝ) + 2) + dcgFrom (c + 1) gs
    linarith

lemma dcgFrom_pos (g : ℝ) (gs : List ℝ) (hg : 0 < g) (hgs : ∀ x ∈ gs, 0 ≤ x) (c : ℕ) :
    0 < dcgFrom c (g :: gs) := by
  have h1 : 0 < g / Real.logb 2 ((c : ℝ) + 2) := div_pos hg (disc_pos c)
  have h2 : 0 ≤ dcgFrom (c + 1) gs := dcgFrom_nonneg gs hgs (c + 1)
  show 0 < g / Real.logb 2 ((c : ℝ) + 2) + dcgFrom (c + 1) gs
  linarith

lemma gains_eq_map_values (gt_pos l : List ℕ) :
    gains gt_pos l
      = (l.map (fun i => gt_pos.getD i 0)).map (fun v : ℕ => (2 : ℝ) ^ v - 1) := by
  rw [List.map_map]
  rfl

lemma gains_mem_nonneg (gt_pos r : List ℕ) : ∀ g ∈ gains gt_pos r, 0 ≤ g := by
  intro g hg
  rw [gains] at hg
  obtain ⟨j, _, rfl⟩ := List.mem_map.mp hg
  exact gain_nonneg _

lemma harmSum_pos (m : ℕ) (hm : 0 < m) : 0 < harmSum m := by
  rw [harmSum]
  apply List.sum_pos
  · intro x hx
    obtain ⟨i, _, rfl⟩ := List.mem_map.mp hx
    exact div_pos one_pos (Nat.cast_add_one_pos i)
  · rw [Ne, List.map_eq_nil_iff, List.range_eq_nil]
    omega

/-! ### Perfect rankings -/

/-- C8: for a binary relevance vector with at least one positive, if the
prediction rank lists every item and places all relevant items before all
irrelevant ones, then `NDCG.compute` and `NCRR.compute` (at the default
`k = -1`) both return 1. -/
theorem C8_perfect_ranking (gt_pos pd_rank : List ℕ)
    (hpos : posItems gt_pos ≠ [])
    (hperm : pd_rank.Perm (List.range gt_pos.length))
    (hbin : ∀ x ∈ gt_pos, x ≤ 1)
    (horder : ∀ i j, i ≤ j → j < pd_rank.length →
      0 < gt_pos.getD (pd_rank.getD j 0) 0 → 0 < gt_pos.getD (pd_rank.getD i 0) 0) :
    NDCG_compute (-1) gt_pos pd_rank = 1 ∧ NCRR_compute (-1) gt_pos pd_rank = 1 := by
  have hvalmem : ∀ x ∈ pd_rank, x < gt_pos.length := by
    intro x hx
    exact List.mem_range.mp (hperm.subset hx)
  have hbound : ∀ x ∈ pd_rank, gt_pos.getD x 0 ≤ 1 := by
    intro x hx
    have hxlt := hvalmem x hx
    rw [List.getD_eq_getElem _ _ hxlt]
    exact hbin _ (List.getElem_mem hxlt)
  -- the value sequence of the prediction rank is sorted descending
  have hvp_sorted : List.Pairwise (fun a b => b ≤ a)
      (pd_rank.map (fun i => gt_pos.getD i 0)) := by
    rw [List.pairwise_iff_getElem]
    intro i j hi hj hij
    rw [List.length_map] at hi hj
    rw [List.getElem_map, List.getElem_map]
    have hgi : pd_rank[i] = pd_rank.getD i 0 := (List.getD_eq_getElem _ _ hi).symm
    have hgj : pd_rank[j] = pd_rank.getD j 0 := (List.getD_eq_getElem _ _ hj).symm
    rw [hgi, hgj]
    by_cases h : 0 < gt_pos.getD (pd_rank.getD j 0) 0
    · have h2 := horder i j (le_of_lt hij) hj h
      have h3 : gt_pos.getD (pd_rank.getD j 0) 0 ≤ 1 := by
        refine hbound _ ?_
        rw [List.getD_eq_getElem _ _ hj]
        exact List.getElem_mem hj
      omega
    · omega
  have hvp_perm : (pd_rank.map (fun i => gt_pos.getD i 0)).Perm gt_pos := by
    have h1 := hperm.map (fun i => gt_pos.getD i 0)
    rw [map_getD_range] at h1
    exact h1
  have hvi_perm : ((idealRank gt_pos).map (fun i => gt_pos.getD i 0)).Perm gt_pos := by
    have h1 := (idealRank_perm gt_pos).map (fun i => gt_pos.getD i 0)
    rw [map_getD_range] at h1
    exact h1
  have hvals_eq : pd_rank.map (fun i => gt_pos.getD i 0)
      = (idealRank gt_pos).map (fun i => gt_pos.getD i 0) := by
    haveI : IsAntisymm ℕ (fun a b => b ≤ a) := ⟨fun a b h1 h2 => le_antisymm h2 h1⟩
    exact List.eq_of_perm_of_sorted (hvp_perm.trans hvi_perm.symm)
      hvp_sorted (idealRank_values_sorted gt_pos)
  have hgains_eq : gains gt_pos pd_rank = gains gt_pos (idealRank gt_pos) := by
    rw [gains_eq_map_values, gains_eq_map_values, hvals_eq]
  have hdcg_eq : dcg_score gt_pos pd_rank (-1) = dcg_score gt_pos (idealRank gt_pos) (-1) := by
    rw [dcg_score, dcg_score, trunc_nonpos _ _ (by norm_num),
      trunc_nonpos _ _ (by norm_num), hgains_eq]
  -- a positive value occurs among the ideal values
  obtain ⟨x, hxmem⟩ := List.exists_mem_of_ne_nil _ hpos
  have hx := (posItems_mem gt_pos x).mp hxmem
  have hvx : gt_pos.getD x 0 ∈ (idealRank gt_pos).map (fun i => gt_pos.getD i 0) := by
    refine hvi_perm.mem_iff.mpr ?_
    rw [List.getD_eq_getElem _ _ hx.1]
    exact List.getElem_mem hx.1
  have hidcg_pos : 0 < dcg_score gt_pos (idealRank gt_pos) (-1) := by
    rw [dcg_score, trunc_nonpos _ _ (by norm_num), gains_eq_map_values]
    cases hvi : (idealRank gt_pos).map (fun i => gt_pos.getD i 0) with
    | nil => rw [hvi] at hvx; cases hvx
    | cons v0 rest =>
      rw [hvi] at hvx
      have hsorted := idealRank_values_sorted gt_pos
      rw [hvi] at hsorted
      have hv0 : 0 < v0 := by
        rcases List.mem_cons.mp hvx with heq | hmem
        · omega
        · have := (List.pairwise_cons.mp hsorted).1 _ hmem
          omega
      rw [List.map_cons]
      refine dcgFrom_pos _ _ (gain_pos v0 hv0) ?_ 0
      intro y hy
      obtain ⟨v, _, rfl⟩ := List.mem_map.mp hy
      exact gain_nonneg v
  constructor
  · rw [NDCG_compute, hdcg_eq]
    exact div_self (ne_of_gt hidcg_pos)
  -- NCRR part
  · have hlen : pd_rank.length = gt_pos.length := by simpa using hperm.length_eq
    have hp : 0 < (posItems gt_pos).length := List.length_pos.mpr hpos
    have hpn : (posItems gt_pos).length ≤ gt_pos.length := by
      have h := (List.filter_sublist (List.range gt_pos.length)
        (p := fun i => decide (0 < gt_pos.getD i 0))).length_le
      simpa [posItems] using h
    have hcount : (pd_rank.map (fun i => gt_pos.getD i 0)).countP
        (fun v => decide (0 < v)) = (posItems gt_pos).length := by
      rw [List.Perm.countP_eq _ hvp_perm]
      rw [List.countP_eq_length_filter]
      have hgt : gt_pos = (List.range gt_pos.length).map (fun i => gt_pos.getD i 0) :=
        (map_getD_range gt_pos).symm
      conv_lhs => rw [hgt]
      rw [List.filter_map, List.length_map]
      rfl
    have hpos_iff : ∀ i, i < pd_rank.length →
        (0 < gt_pos.getD (pd_rank.getD i 0) 0 ↔ i < (posItems gt_pos).length) := by
      intro i hi
      have hmap : i < (pd_rank.map (fun j => gt_pos.getD j 0)).length := by
        rw [List.length_map]; exact hi
      have helem : (pd_rank.map (fun j => gt_pos.getD j 0))[i]
          = gt_pos.getD (pd_rank.getD i 0) 0 := by
        rw [List.getElem_map, List.getD_eq_getElem _ _ hi]
      constructor
      · intro h
        have hge := sorted_desc_countP_ge hvp_sorted hmap (c := 0) (by rw [helem]; exact h)
        omega
      · intro h
        by_contra hc
        have hle0 : (pd_rank.map (fun j => gt_pos.getD j 0))[i] ≤ 0 := by
          rw [helem]; omega
        have hle := sorted_desc_countP_le hvp_sorted hmap hle0
        omega
    have hmatched : matchedPos gt_pos pd_rank = List.range (posItems gt_pos).length := by
      rw [matchedPos]
      have hcongr : ∀ i ∈ List.range pd_rank.length,
          decide (pd_rank.getD i 0 ∈ posItems gt_pos) = decide (i < (posItems gt_pos).length) := by
        intro i hi
        rw [List.mem_range] at hi
        have h1 : pd_rank.getD i 0 ∈ posItems gt_pos ↔ i < (posItems gt_pos).length := by
          rw [posItems_mem]
          constructor
          · intro h; exact (hpos_iff i hi).mp h.2
          · intro h
            refine ⟨?_, (hpos_iff i hi).mpr h⟩
            refine hvalmem _ ?_
            rw [List.getD_eq_getElem _ _ hi]
            exact List.getElem_mem hi
        simp only [decide_eq_decide]
        exact h1
      rw [List.filter_congr hcongr, filter_range_lt _ _ (by omega)]
    rw [NCRR_compute, hmatched]
    show harmSum (posItems gt_pos).length / harmSum (posItems gt_pos).length = 1
    exact div_self (ne_of_gt (harmSum_pos _ hp))

theorem C8_perfect_ranking_inst :
    NDCG_compute (-1) [1] [0] = 1 ∧ NCRR_compute (-1) [1] [0] = 1 := by
  refine C8_perfect_ranking [1] [0] (by decide) ?_ (by decide) ?_
  · have h : List.range ([1] : List ℕ).length = [0] := by decide
    rw [h]
  · intro i j hij hj h
    have hj1 : j < 1 := by simpa using hj
    have hj0 : j = 0 := by omega
    have hi0 : i = 0 := by omega
    subst hj0
    subst hi0
    exact h

/-! ### Rearrangement bounds for DCG -/

lemma div_exchange (a b d1 d2 : ℝ) (hab : a ≤ b) (hd1 : 0 < d1) (hd12 : d1 ≤ d2) :
    a / d1 + b / d2 ≤ b / d1 + a / d2 := by
  have hinv : 1 / d2 ≤ 1 / d1 := one_div_le_one_div_of_le hd1 hd12
  have hmul : 0 ≤ (b - a) * (1 / d1 - 1 / d2) :=
    mul_nonneg (by linarith) (by linarith)
  rw [div_eq_mul_one_div a d1, div_eq_mul_one_div b d2,
    div_eq_mul_one_div b d1, div_eq_mul_one_div a d2]
  nlinarith [hmul]

lemma disc_mono (c : ℕ) :
    Real.logb 2 ((c : ℝ) + 2) ≤ Real.logb 2 (((c + 1 : ℕ) : ℝ) + 2) := by
  apply Real.logb_le_logb_of_le one_lt_two
  · have h := Nat.cast_nonneg (α := ℝ) c
    linarith
  · push_cast
    linarith

lemma dcgFrom_erase_le (w : List ℝ) :
    ∀ (a : ℝ) (c : ℕ), List.Pairwise (fun p q => q ≤ p) w → a ∈ w →
      a / Real.logb 2 ((c : ℝ) + 2) + dcgFrom (c + 1) (w.erase a) ≤ dcgFrom c w := by
  induction w with
  | nil => intro a c _ ha; cases ha
  | cons b w' ih =>
    intro a c hs ha
    by_cases hab : a = b
    · subst hab
      rw [List.erase_cons_head]
      exact le_refl _
    · have hamem : a ∈ w' := by
        rcases List.mem_cons.mp ha with h | h
        · exact absurd h hab
        · exact h
      have herase : (b :: w').erase a = b :: w'.erase a := by
        refine List.erase_cons_tail ?_
        simp only [beq_iff_eq]
        exact fun h => hab h.symm
      have hble : a ≤ b := (List.pairwise_cons.mp hs).1 a hamem
      have hs' : List.Pairwise (fun p q => q ≤ p) w' := (List.pairwise_cons.mp hs).2
      have hih := ih a (c + 1) hs' hamem
      rw [herase]
      have hexch := div_exchange a b (Real.logb 2 ((c : ℝ) + 2))
        (Real.logb 2 (((c + 1 : ℕ) : ℝ) + 2)) hble (disc_pos c) (disc_mono c)
      show a / Real.logb 2 ((c : ℝ) + 2)
          + (b / Real.logb 2 (((c + 1 : ℕ) : ℝ) + 2) + dcgFrom (c + 1 + 1) (w'.erase a))
        ≤ b / Real.logb 2 ((c : ℝ) + 2) + dcgFrom (c + 1) w'
      have hih' : a / Real.logb 2 (((c + 1 : ℕ) : ℝ) + 2) + dcgFrom (c + 1 + 1) (w'.erase a)
          ≤ dcgFrom (c + 1) w' := hih
      linarith

lemma dcgFrom_le_sorted (x : List ℝ) :
    ∀ (w : List ℝ) (c : ℕ), x.Perm w → List.Pairwise (fun p q => q ≤ p) w →
      dcgFrom c x ≤ dcgFrom c w := by
  induction x with
  | nil =>
    intro w c hp _
    have hw : w = [] := hp.symm.eq_nil
    subst hw
    exact le_refl _
  | cons a x' ih =>
    intro w c hp hs
    have hamem : a ∈ w := hp.subset (List.mem_cons_self _ _)
    have hx' : x'.Perm (w.erase a) := by
      have h1 : w.Perm (a :: w.erase a) := List.perm_cons_erase hamem
      exact (hp.trans h1).cons_inv
    have hs' : List.Pairwise (fun p q => q ≤ p) (w.erase a) :=
      List.Pairwise.sublist (List.erase_sublist a w) hs
    have hih := ih (w.erase a) (c + 1) hx' hs'
    have hM := dcgFrom_erase_le w a c hs hamem
    show a / Real.logb 2 ((c : ℝ) + 2) + dcgFrom (c + 1) x' ≤ dcgFrom c w
    linarith

lemma dcgFrom_le_pointwise (x : List ℝ) :
    ∀ (w : List ℝ) (c : ℕ), x.length ≤ w.length →
      (∀ i, i < x.length → x.getD i 0 ≤ w.getD i 0) →
      (∀ g ∈ w, 0 ≤ g) → dcgFrom c x ≤ dcgFrom c w := by
  induction x with
  | nil => intro w c _ _ hw; exact dcgFrom_nonneg w hw c
  | cons a x' ih =>
    intro w c hlen hpt hw
    cases w with
    | nil => simp at hlen
    | cons b w' =>
      have hab : a ≤ b := by
        have h := hpt 0 (by simp)
        simpa using h
      have hih := ih w' (c + 1) (by simpa using hlen)
        (fun i hi => hpt (i + 1) (by simpa using Nat.succ_lt_succ hi))
        (fun g hg => hw g (List.mem_cons_of_mem _ hg))
      have hdiv : a / Real.logb 2 ((c : ℝ) + 2) ≤ b / Real.logb 2 ((c : ℝ) + 2) :=
        (div_le_div_iff_of_pos_right (disc_pos c)).mpr hab
      show a / Real.logb 2 ((c : ℝ) + 2) + dcgFrom (c + 1) x'
        ≤ b / Real.logb 2 ((c : ℝ) + 2) + dcgFrom (c + 1) w'
      linarith

lemma subperm_map {α β : Type} (f : α → β) {l1 l2 : List α} (h : l1.Subperm l2) :
    (l1.map f).Subperm (l2.map f) := by
  rw [← Multiset.coe_le] at h ⊢
  simpa using Multiset.map_le_map (f := f) h

lemma subperm_countP_le {α : Type} (p : α → Bool) {l1 l2 : List α} (h : l1.Subperm l2) :
    l1.countP p ≤ l2.countP p := by
  obtain ⟨l, hlp, hls⟩ := h
  calc l1.countP p = l.countP p := (hlp.countP_eq p).symm
  _ ≤ l2.countP p := hls.countP_le p

lemma sorted_dom (x w : List ℝ) (hx : List.Pairwise (fun p q => q ≤ p) x)
    (hw : List.Pairwise (fun p q => q ≤ p) w) (hsub : x.Subperm w) :
    ∀ i, i < x.length → x.getD i 0 ≤ w.getD i 0 := by
  intro i hix
  have hiw : i < w.length := lt_of_lt_of_le hix hsub.length_le
  rw [List.getD_eq_getElem _ _ hix, List.getD_eq_getElem _ _ hiw]
  by_contra hc
  have hlt : w[i] < x[i] := not_le.mp hc
  have h1 : i + 1 ≤ x.countP (fun t => decide (w[i] < t)) :=
    sorted_desc_countP_ge hx hix hlt
  have h2 : w.countP (fun t => decide (w[i] < t)) ≤ i :=
    sorted_desc_countP_le hw hiw (le_refl _)
  have h3 := subperm_countP_le (fun t => decide (w[i] < t)) hsub
  omega

lemma gains_take (gt_pos l : List ℕ) (s : ℕ) :
    gains gt_pos (l.take s) = (gains gt_pos l).take s := by
  rw [gains, gains, List.map_take]

lemma dcg_le_core (x W : List ℝ) (s : ℕ) (hxW : x.Subperm W)
    (hW : List.Pairwise (fun p q => q ≤ p) W)
    (hWn : ∀ g ∈ W, 0 ≤ g)
    (hlen : x.length ≤ (W.take s).length) :
    dcgFrom 0 x ≤ dcgFrom 0 (W.take s) := by
  haveI : IsTotal ℝ (fun p q : ℝ => q ≤ p) := ⟨fun a b => le_total b a⟩
  haveI : IsTrans ℝ (fun p q : ℝ => q ≤ p) := ⟨fun a b c h1 h2 => le_trans h2 h1⟩
  set y := List.insertionSort (fun p q : ℝ => q ≤ p) x with hy
  have hperm : x.Perm y := (List.perm_insertionSort _ x).symm
  have hy_sorted : List.Pairwise (fun p q : ℝ => q ≤ p) y :=
    List.sorted_insertionSort _ x
  have h1 : dcgFrom 0 x ≤ dcgFrom 0 y := dcgFrom_le_sorted x y 0 hperm hy_sorted
  have hysub : y.Subperm W := (hperm.symm.subperm).trans hxW
  have hdom := sorted_dom y W hy_sorted hW hysub
  have hylen : y.length = x.length := (hperm.length_eq).symm
  have h2 : dcgFrom 0 y ≤ dcgFrom 0 (W.take s) := by
    refine dcgFrom_le_pointwise y (W.take s) 0 (by omega) ?_ ?_
    · intro i hi
      have hit : i < (W.take s).length := by omega
      have hiW : i < W.length := by
        have h := List.length_take s W
        omega
      have h3 := hdom i (by omega)
      rw [List.getD_eq_getElem _ _ hit, List.getElem_take]
      rw [List.getD_eq_getElem _ _ hiW] at h3
      exact h3
    · intro g hg
      exact hWn g ((List.take_sublist s W).subset hg)
  linarith

lemma pd_length_le (gt_pos pd_rank : List ℕ) (hnd : pd_rank.Nodup)
    (hval : ∀ x ∈ pd_rank, x < gt_pos.length) :
    pd_rank.length ≤ gt_pos.length := by
  have hsub : pd_rank.Subperm (List.range gt_pos.length) :=
    hnd.subperm (fun x hx => List.mem_range.mpr (hval x hx))
  have h := hsub.length_le
  rwa [List.length_range] at h

lemma gains_ideal_sorted (gt_pos : List ℕ) :
    List.Pairwise (fun p q : ℝ => q ≤ p) (gains gt_pos (idealRank gt_pos)) := by
  rw [gains_eq_map_values]
  refine List.Pairwise.map _ ?_ (idealRank_values_sorted gt_pos)
  intro a b h
  have hpow := pow_le_pow_right₀ (by norm_num : (1 : ℝ) ≤ 2) h
  show (2 : ℝ) ^ b - 1 ≤ (2 : ℝ) ^ a - 1
  linarith

lemma trunc_subperm_ideal (gt_pos pd_rank : List ℕ) (k : ℤ) (hnd : pd_rank.Nodup)
    (hval : ∀ x ∈ pd_rank, x < gt_pos.length) :
    (trunc k pd_rank).Subperm (idealRank gt_pos) := by
  have h1 : pd_rank.Subperm (List.range gt_pos.length) :=
    hnd.subperm (fun x hx => List.mem_range.mpr (hval x hx))
  exact ((trunc_sublist k pd_rank).subperm.trans h1).trans
    (idealRank_perm gt_pos).symm.subperm

lemma dcg_le_idcg (gt_pos pd_rank : List ℕ) (k : ℤ) (hnd : pd_rank.Nodup)
    (hval : ∀ x ∈ pd_rank, x < gt_pos.length) :
    dcg_score gt_pos pd_rank k ≤ dcg_score gt_pos (idealRank gt_pos) k := by
  have hsubperm : (gains gt_pos (trunc k pd_rank)).Subperm
      (gains gt_pos (idealRank gt_pos)) := by
    rw [gains, gains]
    exact subperm_map _ (trunc_subperm_ideal gt_pos pd_rank k hnd hval)
  have hW := gains_ideal_sorted gt_pos
  have hWn := gains_mem_nonneg gt_pos (idealRank gt_pos)
  have hplen := pd_length_le gt_pos pd_rank hnd hval
  have hilen : (idealRank gt_pos).length = gt_pos.length := idealRank_length gt_pos
  rw [dcg_score, dcg_score]
  by_cases hk : 0 < k
  · rw [trunc, if_pos hk, trunc, if_pos hk, gains_take, gains_take]
    have h := hsubperm
    rw [trunc, if_pos hk, gains_take] at h
    refine dcg_le_core _ _ k.toNat h hW hWn ?_
    rw [List.length_take, List.length_take, gains, gains,
      List.length_map, List.length_map, hilen]
    omega
  · rw [trunc, if_neg hk, trunc, if_neg hk]
    have h := hsubperm
    rw [trunc, if_neg hk] at h
    have hlen2 : (gains gt_pos pd_rank).length
        ≤ ((gains gt_pos (idealRank gt_pos)).take
            (gains gt_pos (idealRank gt_pos)).length).length := by
      rw [List.take_length, gains, gains, List.length_map, List.length_map, hilen]
      exact hplen
    have hcore := dcg_le_core (gains gt_pos pd_rank) (gains gt_pos (idealRank gt_pos))
      (gains gt_pos (idealRank gt_pos)).length h hW hWn hlen2
    rw [List.take_length] at hcore
    exact hcore

/-! ### Harmonic-sum bounds for NCRR -/

lemma harmSum_succ (m : ℕ) : harmSum (m + 1) = harmSum m + 1 / ((m : ℚ) + 1) := by
  rw [harmSum, harmSum, List.range_succ, List.map_append, List.sum_append]
  simp

lemma harmSum_mono {m m' : ℕ} (h : m ≤ m') : harmSum m ≤ harmSum m' := by
  induction m' with
  | zero =>
    have hm : m = 0 := by omega
    subst hm
    exact le_refl _
  | succ n ih =>
    rcases Nat.lt_or_ge m (n + 1) with hlt | hge
    · have h1 := ih (by omega)
      rw [harmSum_succ]
      have h2 : 0 ≤ 1 / ((n : ℚ) + 1) := by positivity
      linarith
    · have hm : m = n + 1 := by omega
      subst hm
      exact le_refl _

lemma finset_sum_inv_le_harm : ∀ (n : ℕ) (s : Finset ℕ), s.card = n →
    (∑ a ∈ s, 1 / ((a : ℚ) + 1)) ≤ harmSum n := by
  intro n
  induction n with
  | zero =>
    intro s hs
    rw [Finset.card_eq_zero] at hs
    subst hs
    simp [harmSum]
  | succ m ih =>
    intro s hs
    have hne : s.Nonempty := by
      rw [← Finset.card_pos, hs]
      omega
    have hMs : s.max' hne ∈ s := Finset.max'_mem s hne
    have hcard : (s.erase (s.max' hne)).card = m := by
      rw [Finset.card_erase_of_mem hMs, hs]
      omega
    have hMge : m ≤ s.max' hne := by
      have hsub : s ⊆ Finset.range (s.max' hne + 1) := by
        intro a ha
        rw [Finset.mem_range]
        have h := Finset.le_max' s a ha
        omega
      have h := Finset.card_le_card hsub
      rw [hs, Finset.card_range] at h
      omega
    have hsum : (∑ a ∈ s, 1 / ((a : ℚ) + 1))
        = (∑ a ∈ s.erase (s.max' hne), 1 / ((a : ℚ) + 1))
          + 1 / (((s.max' hne) : ℚ) + 1) := by
      rw [Finset.sum_erase_add s _ hMs]
    rw [hsum, harmSum_succ]
    have h1 := ih (s.erase (s.max' hne)) hcard
    have h2 : 1 / (((s.max' hne) : ℚ) + 1) ≤ 1 / ((m : ℚ) + 1) := by
      apply one_div_le_one_div_of_le
      · positivity
      · have hc : (m : ℚ) ≤ ((s.max' hne) : ℚ) := by exact_mod_cast hMge
        linarith
    linarith

lemma list_sum_inv_le_harm (l : List ℕ) (hnd : l.Nodup) :
    (l.map (fun (i : ℕ) => 1 / ((i : ℚ) + 1))).sum ≤ harmSum l.length := by
  rw [← List.sum_toFinset _ hnd]
  refine finset_sum_inv_le_harm l.length l.toFinset ?_
  rw [List.toFinset_card_of_nodup hnd]

lemma matchedPos_length_le (gt_pos pd_rank : List ℕ) (hnd : pd_rank.Nodup) :
    (matchedPos gt_pos pd_rank).length ≤ (posItems gt_pos).length := by
  have hmap_nodup : ((matchedPos gt_pos pd_rank).map (fun i => pd_rank.getD i 0)).Nodup := by
    refine List.Nodup.map_on ?_ (matchedPos_nodup gt_pos pd_rank)
    intro i hi j hj hij
    have hi2 := ((matchedPos_mem _ _ _).mp hi).1
    have hj2 := ((matchedPos_mem _ _ _).mp hj).1
    rw [List.getD_eq_getElem _ _ hi2, List.getD_eq_getElem _ _ hj2] at hij
    exact (List.Nodup.getElem_inj_iff hnd).mp hij
  have hmap_sub : ∀ x ∈ (matchedPos gt_pos pd_rank).map (fun i => pd_rank.getD i 0),
      x ∈ posItems gt_pos := by
    intro x hx
    obtain ⟨i, hi, rfl⟩ := List.mem_map.mp hx
    exact ((matchedPos_mem _ _ _).mp hi).2
  have hsub := (hmap_nodup.subperm hmap_sub).length_le
  rwa [List.length_map] at hsub

/-! ### Elementary bounds for the counting metrics -/

lemma natDiv_mem_unit (a b : ℕ) (hab : a ≤ b) :
    0 ≤ (a : ℚ) / (b : ℚ) ∧ (a : ℚ) / (b : ℚ) ≤ 1 := by
  rcases Nat.eq_zero_or_pos b with hb | hb
  · subst hb
    have ha : a = 0 := by omega
    subst ha
    norm_num
  · have hbq : (0 : ℚ) < b := by exact_mod_cast hb
    exact ⟨div_nonneg (by positivity) (le_of_lt hbq),
      (div_le_one hbq).mpr (by exact_mod_cast hab)⟩

lemma zipWith_mul_sum_le_left : ∀ (p g : List ℕ), (∀ x ∈ g, x ≤ 1) →
    (List.zipWith (· * ·) p g).sum ≤ p.sum := by
  intro p
  induction p with
  | nil => intro g _; simp
  | cons a p' ih =>
    intro g hg
    cases g with
    | nil => simp
    | cons b g' =>
      have hb := hg b (List.mem_cons_self _ _)
      have ih' := ih g' (fun x hx => hg x (List.mem_cons_of_mem _ hx))
      rw [List.zipWith_cons_cons, List.sum_cons, List.sum_cons]
      have hab : a * b ≤ a := by
        calc a * b ≤ a * 1 := Nat.mul_le_mul_left a hb
        _ = a := Nat.mul_one a
      omega

lemma zipWith_mul_sum_le_right : ∀ (p g : List ℕ), (∀ x ∈ p, x ≤ 1) →
    (List.zipWith (· * ·) p g).sum ≤ g.sum := by
  intro p
  induction p with
  | nil => intro g _; simp
  | cons a p' ih =>
    intro g hp
    cases g with
    | nil => simp
    | cons b g' =>
      have ha := hp a (List.mem_cons_self _ _)
      have ih' := ih g' (fun x hx => hp x (List.mem_cons_of_mem _ hx))
      rw [List.zipWith_cons_cons, List.sum_cons, List.sum_cons]
      have hab : a * b ≤ b := by
        calc a * b ≤ 1 * b := Nat.mul_le_mul_right b ha
        _ = b := Nat.one_mul b
      omega

lemma predIndicator_le_one (gt_pos r : List ℕ) :
    ∀ x ∈ predIndicator gt_pos r, x ≤ 1 := by
  intro x hx
  obtain ⟨i, _, rfl⟩ := List.mem_map.mp hx
  by_cases h : i ∈ r <;> simp [h]

lemma tp_le_tp_fp (k : ℤ) (gt_pos pd_rank : List ℕ) (hbin : ∀ x ∈ gt_pos, x ≤ 1) :
    (MeasureAtK_compute k gt_pos pd_rank).1 ≤ (MeasureAtK_compute k gt_pos pd_rank).2.2 :=
  zipWith_mul_sum_le_left _ _ hbin

lemma tp_le_tp_fn (k : ℤ) (gt_pos pd_rank : List ℕ) :
    (MeasureAtK_compute k gt_pos pd_rank).1 ≤ (MeasureAtK_compute k gt_pos pd_rank).2.1 :=
  zipWith_mul_sum_le_right _ _ (predIndicator_le_one gt_pos (trunc k pd_rank))

lemma Precision_bounds (k : ℤ) (gt_pos pd_rank : List ℕ) (hbin : ∀ x ∈ gt_pos, x ≤ 1) :
    0 ≤ Precision_compute k gt_pos pd_rank ∧ Precision_compute k gt_pos pd_rank ≤ 1 := by
  rw [Precision_compute]
  exact natDiv_mem_unit _ _ (tp_le_tp_fp k gt_pos pd_rank hbin)

lemma Recall_bounds (k : ℤ) (gt_pos pd_rank : List ℕ) :
    0 ≤ Recall_compute k gt_pos pd_rank ∧ Recall_compute k gt_pos pd_rank ≤ 1 := by
  rw [Recall_compute]
  exact natDiv_mem_unit _ _ (tp_le_tp_fn k gt_pos pd_rank)

lemma list_unit_sum_bounds (l : List ℚ) (h : ∀ x ∈ l, 0 ≤ x ∧ x ≤ 1) :
    0 ≤ l.sum ∧ l.sum ≤ (l.length : ℚ) := by
  refine ⟨List.sum_nonneg (fun x hx => (h x hx).1), ?_⟩
  have hcard := List.sum_le_card_nsmul l 1 (fun x hx => (h x hx).2)
  simpa [nsmul_eq_mul] using hcard

/-- C9: for inputs whose denominators are nonzero (duplicate-free in-range
rankings and nonzero ideal DCG for NDCG; at least one positive for NCRR;
binary relevance and nonzero counts for the counting metrics; at least one
positive and one negative for AUC), every metric's result lies in [0, 1]. -/
theorem C9_metrics_bounded :
    (∀ (k : ℤ) (gt_pos pd_rank : List ℕ), pd_rank.Nodup →
        (∀ x ∈ pd_rank, x < gt_pos.length) →
        dcg_score gt_pos (idealRank gt_pos) k ≠ 0 →
        0 ≤ NDCG_compute k gt_pos pd_rank ∧ NDCG_compute k gt_pos pd_rank ≤ 1)
  ∧ (∀ (k : ℤ) (gt_pos pd_rank : List ℕ), pd_rank.Nodup → posItems gt_pos ≠ [] →
        0 ≤ NCRR_compute k gt_pos pd_rank ∧ NCRR_compute k gt_pos pd_rank ≤ 1)
  ∧ (∀ (gt_pos pd_rank : List ℕ) (q : ℚ), MRR_compute gt_pos pd_rank = Except.ok q →
        0 ≤ q ∧ q ≤ 1)
  ∧ (∀ (k : ℤ) (gt_pos pd_rank : List ℕ), (∀ x ∈ gt_pos, x ≤ 1) →
        (MeasureAtK_compute k gt_pos pd_rank).2.2 ≠ 0 →
        0 ≤ Precision_compute k gt_pos pd_rank ∧ Precision_compute k gt_pos pd_rank ≤ 1)
  ∧ (∀ (k : ℤ) (gt_pos pd_rank : List ℕ), (MeasureAtK_compute k gt_pos pd_rank).2.1 ≠ 0 →
        0 ≤ Recall_compute k gt_pos pd_rank ∧ Recall_compute k gt_pos pd_rank ≤ 1)
  ∧ (∀ (k : ℤ) (gt_pos pd_rank : List ℕ), (∀ x ∈ gt_pos, x ≤ 1) →
        0 ≤ FMeasure_compute k gt_pos pd_rank ∧ FMeasure_compute k gt_pos pd_rank ≤ 1)
  ∧ (∀ (pd_scores : List ℚ) (gt_pos gt_neg : List ℕ),
        maskSelect pd_scores gt_pos ≠ [] → maskSelect pd_scores gt_neg ≠ [] →
        0 ≤ AUC_compute pd_scores gt_pos gt_neg
          ∧ AUC_compute pd_scores gt_pos gt_neg ≤ 1) := by
  refine ⟨?_, ?_, ?_, ?_, ?_, ?_, ?_⟩
  · -- NDCG
    intro k gt_pos pd_rank hnd hval hne
    have hidcg0 : 0 ≤ dcg_score gt_pos (idealRank gt_pos) k := by
      rw [dcg_score]
      exact dcgFrom_nonneg _ (gains_mem_nonneg _ _) 0
    have hidcg : 0 < dcg_score gt_pos (idealRank gt_pos) k :=
      lt_of_le_of_ne hidcg0 (Ne.symm hne)
    have hd0 : 0 ≤ dcg_score gt_pos pd_rank k := by
      rw [dcg_score]
      exact dcgFrom_nonneg _ (gains_mem_nonneg _ _) 0
    constructor
    · exact div_nonneg hd0 hidcg0
    · rw [NDCG_compute]
      exact (div_le_one hidcg).mpr (dcg_le_idcg gt_pos pd_rank k hnd hval)
  · -- NCRR
    intro k gt_pos pd_rank hnd hpos
    have hp : 0 < (posItems gt_pos).length := List.length_pos.mpr hpos
    have hicrr := harmSum_pos _ hp
    have hcrr0 : 0 ≤ ((matchedPos gt_pos pd_rank).map
        (fun (i : ℕ) => 1 / ((i : ℚ) + 1))).sum := by
      refine List.sum_nonneg ?_
      intro x hx
      obtain ⟨i, _, rfl⟩ := List.mem_map.mp hx
      positivity
    have hcrr_le : ((matchedPos gt_pos pd_rank).map
        (fun (i : ℕ) => 1 / ((i : ℚ) + 1))).sum ≤ harmSum (posItems gt_pos).length := by
      calc ((matchedPos gt_pos pd_rank).map (fun (i : ℕ) => 1 / ((i : ℚ) + 1))).sum
          ≤ harmSum (matchedPos gt_pos pd_rank).length :=
            list_sum_inv_le_harm _ (matchedPos_nodup _ _)
      _ ≤ harmSum (posItems gt_pos).length :=
            harmSum_mono (matchedPos_length_le gt_pos pd_rank hnd)
    rw [NCRR_compute]
    exact ⟨div_nonneg hcrr0 (le_of_lt hicrr), (div_le_one hicrr).mpr hcrr_le⟩
  · -- MRR
    intro gt_pos pd_rank q hq
    cases h : matchedPos gt_pos pd_rank with
    | nil => simp [MRR_compute, h] at hq
    | cons p t =>
      simp only [MRR_compute, h, Except.ok.injEq] at hq
      subst hq
      have hp1 : (0 : ℚ) < (p : ℚ) + 1 := by positivity
      refine ⟨by positivity, ?_⟩
      rw [div_le_one hp1]
      have hge : (0 : ℚ) ≤ (p : ℚ) := by positivity
      linarith
  · -- Precision
    intro k gt_pos pd_rank hbin _
    exact Precision_bounds k gt_pos pd_rank hbin
  · -- Recall
    intro k gt_pos pd_rank _
    exact Recall_bounds k gt_pos pd_rank
  · -- FMeasure
    intro k gt_pos pd_rank hbin
    have hP := Precision_bounds k gt_pos pd_rank hbin
    have hR := Recall_bounds k gt_pos pd_rank
    rw [FMeasure_compute]
    split_ifs with h
    · constructor
      · exact div_nonneg (by nlinarith [hP.1, hR.1]) (le_of_lt h)
      · rw [div_le_one h]
        nlinarith [hP.1, hP.2, hR.1, hR.2]
    · norm_num
  · -- AUC
    intro pd_scores gt_pos gt_neg hpos hneg
    have hfr : ∀ x ∈ (maskSelect pd_scores gt_pos).map
        (aucFrac (maskSelect pd_scores gt_neg)), 0 ≤ x ∧ x ≤ 1 := by
      intro x hx
      obtain ⟨ps, _, rfl⟩ := List.mem_map.mp hx
      rw [aucFrac]
      exact natDiv_mem_unit _ _ (List.Sublist.length_le (List.filter_sublist _))
    have hsum := list_unit_sum_bounds _ hfr
    have hlen : (0 : ℚ) < (((maskSelect pd_scores gt_pos).map
        (aucFrac (maskSelect pd_scores gt_neg))).length : ℚ) := by
      rw [List.length_map]
      have hl : 0 < (maskSelect pd_scores gt_pos).length := List.length_pos.mpr hpos
      exact_mod_cast hl
    rw [AUC_compute]
    exact ⟨div_nonneg hsum.1 (le_of_lt hlen), (div_le_one hlen).mpr hsum.2⟩

theorem C9_metrics_bounded_inst :
    (0 ≤ NCRR_compute (-1) [1] [0] ∧ NCRR_compute (-1) [1] [0] ≤ 1)
  ∧ (0 ≤ (1 : ℚ) ∧ (1 : ℚ) ≤ 1)
  ∧ (0 ≤ Precision_compute 1 [1] [0] ∧ Precision_compute 1 [1] [0] ≤ 1)
  ∧ (0 ≤ Recall_compute 1 [1] [0] ∧ Recall_compute 1 [1] [0] ≤ 1)
  ∧ (0 ≤ FMeasure_compute 1 [1] [0] ∧ FMeasure_compute 1 [1] [0] ≤ 1)
  ∧ (0 ≤ AUC_compute [1, 0] [1, 0] [0, 1] ∧ AUC_compute [1, 0] [1, 0] [0, 1] ≤ 1) := by
  refine ⟨C9_metrics_bounded.2.1 (-1) [1] [0] (by decide) (by decide),
    C9_metrics_bounded.2.2.1 [1] [0] 1 ?_,
    C9_metrics_bounded.2.2.2.1 1 [1] [0] (by decide) (by decide),
    C9_metrics_bounded.2.2.2.2.1 1 [1] [0] (by decide),
    C9_metrics_bounded.2.2.2.2.2.1 1 [1] [0] (by decide),
    C9_metrics_bounded.2.2.2.2.2.2 [1, 0] [1, 0] [0, 1] (by decide) (by decide)⟩
  have h : matchedPos [1] [0] = [0] := by decide
  rw [MRR_compute, h]
  norm_num
